import Mathlib

/-!
Verification development for `update_results.py`, the script that fetches the
Potsdam naturalization status page, extracts the German status sentence,
parses the "Stand" date and the target ("bis ...") date, and appends a row to
a CSV ledger when the content changed.

The Python functions are embedded shallowly:

* the regular expressions of the script are transliterated into deterministic
  scanners over `List Char`; every repetition operator in those patterns is
  either bounded or ranges over a character class that is disjoint from the
  characters the pattern requires next, so greedy scanning without
  backtracking realizes exactly the Python `re` semantics. The single place
  where backtracking matters, the optional qualifier group
  `(Anfang|Mitte|Ende)?`, is modelled by trying the three alternatives in
  order with full continuation and falling back to the empty alternative.
* `re.search` is `searchFirst`: the match attempt at the leftmost position
  that succeeds.
* Python case handling is modelled in two layers. `toLowerGer` models
  `str.lower` on the alphabet these texts use (ASCII letters and the German
  letters of the patterns; code points it does not know are left unchanged,
  which preserves every table-lookup outcome since the tables' keys lie in
  the modelled alphabet). Literal matching under `re.IGNORECASE` is CPython's
  `sre` engine: simple lower-casing of both characters plus the engine's
  extra case-equivalence table. The matchers used by most claims
  (`ciDropLit`) model only the lower-casing, exact for texts over the
  modelled alphabet; the `Sre`-suffixed matchers (`sreCharMatch`,
  `ciDropLitSre`, `matchFuzzyAtSre`, `parse_target_dateSre`) additionally
  model simple-lowering of `İ` (U+0130) to `i` and the two rows of the
  equivalence table whose classes meet these patterns' letters,
  `i ↔ ı` (U+0131) and `s ↔ ſ` (U+017F) — the remaining rows involve Greek,
  micro-sign and ligature code points that no pattern literal lowers to, so
  for these five patterns the `Sre` matchers are exact on the qualifier and
  literal matching.
* the CSV file is modelled as `Option` (absent file) of the list of its
  records; the `csv` module codec is an external collaborator.
* `datetime.date` construction is `mkDate`, validating year, month and day
  exactly as CPython does (1 ≤ year ≤ 9999, 1 ≤ month ≤ 12,
  1 ≤ day ≤ days in month).
* the HTML machinery of `html.parser` used by `_PlainTextExtractor` is
  modelled by `tokenize`: character data, start/end tags, comments,
  declarations, processing instructions, and the CDATA content mode that the
  stdlib parser enters for `script` and `style` elements, in which element
  content is delivered as character data. Character-reference conversion and
  quoted-attribute subtleties are outside the model; unterminated constructs
  are buffered (never emitted), matching a single `feed` without `close`.
-/

set_option maxRecDepth 4096

namespace UpdateResults

/-- Whitespace as Python's `str.split`, `str.strip` and `re` `\s` recognize it
(the Unicode whitespace set). -/
def isPySpace (c : Char) : Bool :=
  c = ' ' || c = '\t' || c = '\n' || c = '\r' || c = '\x0b' || c = '\x0c' ||
  ('\x1c' ≤ c && c ≤ '\x1f') || c = '\x85' || c = ' ' || c = ' ' ||
  (' ' ≤ c && c ≤ ' ') || c = ' ' || c = ' ' ||
  c = ' ' || c = ' ' || c = '　'

/-- Decimal digits, the `\d` class on the ASCII range these patterns consume
(code points 48 to 57, i.e. `'0'` to `'9'`). -/
def isDigit (c : Char) : Bool :=
  48 ≤ c.toNat && c.toNat ≤ 57

/-- The character class `[A-Za-zÄÖÜäöüß]` of the fuzzy target-date pattern. -/
def isGermanLetter (c : Char) : Bool :=
  ('A' ≤ c && c ≤ 'Z') || ('a' ≤ c && c ≤ 'z') ||
  c = 'Ä' || c = 'Ö' || c = 'Ü' || c = 'ä' || c = 'ö' || c = 'ü' || c = 'ß'

/-- Per-character lower-casing on the alphabet the script manipulates (ASCII
plus the German letters of its patterns and tables); models `str.lower` as
applied to the captured groups. Code points outside this alphabet are left
unchanged; in particular `ı` (U+0131) stays `ı`, as in Python, and `İ`
(U+0130), which Python's full casing expands to `i` plus a combining dot, is
kept as `İ` — either way every lookup in `GERMAN_MONTHS` / `POSITION_DAY`
misses exactly when Python's does, since the keys are over the modelled
alphabet. Case-insensitive regex matching is modelled separately (see
`sreCharMatch`). -/
def toLowerGer (c : Char) : Char :=
  if 'A' ≤ c && c ≤ 'Z' then Char.ofNat (c.toNat + 32)
  else if c = 'Ä' then 'ä'
  else if c = 'Ö' then 'ö'
  else if c = 'Ü' then 'ü'
  else c

/-- Lower-casing of a character list. -/
def lowerGer (cs : List Char) : List Char :=
  cs.map toLowerGer

/-- Greedy longest run of characters satisfying `p` (a `p*` class repetition),
returning the run and the rest. -/
def munch (p : Char → Bool) : List Char → List Char × List Char
  | [] => ([], [])
  | c :: cs =>
    if p c then ((c :: (munch p cs).1), (munch p cs).2)
    else ([], c :: cs)

/-- Case-sensitive literal: returns the rest after the literal, if present. -/
def dropLit : List Char → List Char → Option (List Char)
  | [], cs => some cs
  | _ :: _, [] => none
  | p :: ps, c :: cs => if c = p then dropLit ps cs else none

/-- Case-insensitive literal: returns the matched source characters (original
casing, as a regex group would capture them) and the rest. -/
def ciDropLit : List Char → List Char → Option (List Char × List Char)
  | [], cs => some ([], cs)
  | _ :: _, [] => none
  | p :: ps, c :: cs =>
    if toLowerGer c = toLowerGer p then
      match ciDropLit ps cs with
      | some (cap, r) => some (c :: cap, r)
      | none => none
    else none

/-- Exactly `n` decimal digits (the `\d{n}` bounded repetition), returning the
digit characters and the rest. -/
def takeDigits : Nat → List Char → Option (List Char × List Char)
  | 0, cs => some ([], cs)
  | _ + 1, [] => none
  | n + 1, c :: cs =>
    if isDigit c then
      match takeDigits n cs with
      | some (d, r) => some (c :: d, r)
      | none => none
    else none

/-- A single required character. -/
def expectChar (c : Char) : List Char → Option (List Char)
  | [] => none
  | c' :: cs => if c' = c then some cs else none

/-- Python `re.search`: attempt the match at every position from the left,
returning the first success. -/
def searchFirst {α : Type} (m : List Char → Option α) : List Char → Option α
  | [] => m []
  | c :: cs =>
    match m (c :: cs) with
    | some r => some r
    | none => searchFirst m cs

/-- Numeric value of a digit string, as Python `int`. -/
def natOfDigits (ds : List Char) : Nat :=
  ds.foldl (fun a c => 10 * a + (c.toNat - 48)) 0

/-- Calendar dates as `datetime.date` values. -/
structure Date where
  year : Nat
  month : Nat
  day : Nat
deriving DecidableEq, Repr

/-- The failure modes of the two date parsers, mirroring the `ValueError`s the
script raises (plus date-construction failure from `datetime.date`). -/
inductive ParseErr where
  | notFound (msg : String)
  | invalidMonth (monthRaw : String)
  | unsupportedPosition (positionRaw : String)
  | invalidDate (msg : String)
deriving DecidableEq, Repr

instance {ε α : Type} [DecidableEq ε] [DecidableEq α] : DecidableEq (Except ε α) :=
  fun a b =>
    match a, b with
    | .ok x, .ok y =>
      if h : x = y then isTrue (by rw [h])
      else isFalse (by intro hh; cases hh; exact h rfl)
    | .error x, .error y =>
      if h : x = y then isTrue (by rw [h])
      else isFalse (by intro hh; cases hh; exact h rfl)
    | .ok _, .error _ => isFalse (by intro h; cases h)
    | .error _, .ok _ => isFalse (by intro h; cases h)

/-- Leap years as `calendar.isleap` / `datetime`. -/
def isleap (y : Nat) : Bool :=
  y % 4 = 0 && (y % 100 ≠ 0 || y % 400 = 0)

/-- The `calendar.mdays` table (index 0 unused). -/
def mdays : List Nat :=
  [0, 31, 28, 31, 30, 31, 30, 31, 31, 30, 31, 30, 31]

/-- Number of days in a month: `calendar.monthrange(y, m)[1]`, which is
`mdays[m] + (m == 2 and isleap(y))`. -/
def monthrangeDays (y m : Nat) : Nat :=
  mdays.getD m 0 + (if m = 2 && isleap y then 1 else 0)

/-- Checked construction of a `datetime.date`, with CPython's validation
order: year range, then month range, then day range. -/
def mkDate (y m d : Nat) : Except ParseErr Date :=
  if ¬(1 ≤ y ∧ y ≤ 9999) then .error (.invalidDate "year is out of range")
  else if ¬(1 ≤ m ∧ m ≤ 12) then .error (.invalidDate "month must be in 1..12")
  else if ¬(1 ≤ d ∧ d ≤ monthrangeDays y m) then
    .error (.invalidDate "day is out of range for month")
  else .ok ⟨y, m, d⟩

/-- The `GERMAN_MONTHS` dictionary of the script. -/
def GERMAN_MONTHS : List (List Char × Nat) :=
  [("januar".data, 1), ("februar".data, 2), ("märz".data, 3), ("maerz".data, 3),
   ("april".data, 4), ("mai".data, 5), ("juni".data, 6), ("juli".data, 7),
   ("august".data, 8), ("september".data, 9), ("oktober".data, 10),
   ("november".data, 11), ("dezember".data, 12)]

/-- The values of the `POSITION_DAY` dictionary: a fixed day number or the
marker `"last"` for the last day of the month. -/
inductive DayRef where
  | fixed (n : Nat)
  | last
deriving DecidableEq, Repr

/-- The `POSITION_DAY` dictionary of the script. -/
def POSITION_DAY : List (List Char × DayRef) :=
  [("anfang".data, .fixed 5), ("mitte".data, .fixed 15), ("ende".data, .last)]

/-- The digit tail `\s*(\d{2})\.(\d{2})\.(\d{4})` shared by the explicit
target-date pattern and the stand-date pattern; returns the three digit
groups in pattern order (day, month, year). -/
def matchDMYAt (r0 : List Char) : Option (List Char × List Char × List Char) :=
  match takeDigits 2 (munch isPySpace r0).2 with
  | none => none
  | some (d, r2) =>
    match expectChar '.' r2 with
    | none => none
    | some r3 =>
      match takeDigits 2 r3 with
      | none => none
      | some (mo, r4) =>
        match expectChar '.' r4 with
        | none => none
        | some r5 =>
          match takeDigits 4 r5 with
          | none => none
          | some (y, _) => some (d, mo, y)

/-- Match attempt of `bis\s*(\d{2})\.(\d{2})\.(\d{4})` (case-sensitive) at the
head of the input; returns the three digit groups (day, month, year). -/
def matchDirectAt (cs : List Char) : Option (List Char × List Char × List Char) :=
  match dropLit "bis".data cs with
  | none => none
  | some r0 => matchDMYAt r0

/-- The continuation of the fuzzy pattern after the optional qualifier:
`\s*([A-Za-zÄÖÜäöüß]+)\s*(\d{4})`; returns the month-word and year groups.
The month group must be nonempty (`+`). -/
def matchFuzzyTail (r : List Char) : Option (List Char × List Char) :=
  match munch isGermanLetter (munch isPySpace r).2 with
  | ([], _) => none
  | (c :: cs, r2) =>
    match takeDigits 4 (munch isPySpace r2).2 with
    | none => none
    | some (y, _) => some (c :: cs, y)

/-- The optional greedy group `(Anfang|Mitte|Ende)?` followed by the rest of
the fuzzy pattern: each alternative is tried in order with the full
continuation, as the backtracking `re` engine does. -/
def tryQualList : List (List Char) → List Char → Option (Option (List Char) × List Char × List Char)
  | [], _ => none
  | q :: qs, r =>
    match ciDropLit q r with
    | some (cap, r2) =>
      match matchFuzzyTail r2 with
      | some (m, y) => some (some cap, m, y)
      | none => tryQualList qs r
    | none => tryQualList qs r

/-- Match attempt of the fuzzy pattern
`bis\s*(Anfang|Mitte|Ende)?\s*([A-Za-zÄÖÜäöüß]+)\s*(\d{4})` with
`re.IGNORECASE` at the head of the input; returns the captured qualifier (if
any), the month word and the year digits. -/
def matchFuzzyAt (cs : List Char) : Option (Option (List Char) × List Char × List Char) :=
  match ciDropLit "bis".data cs with
  | none => none
  | some (_, r0) =>
    match tryQualList ["Anfang".data, "Mitte".data, "Ende".data] (munch isPySpace r0).2 with
    | some res => some res
    | none =>
      match matchFuzzyTail (munch isPySpace r0).2 with
      | some (m, y) => some (none, m, y)
      | none => none

/-- Match attempt of `Stand:\s*(\d{2})\.(\d{2})\.(\d{4})` (case-sensitive) at
the head of the input; returns the three digit groups (day, month, year). -/
def matchStandAt (cs : List Char) : Option (List Char × List Char × List Char) :=
  match dropLit "Stand:".data cs with
  | none => none
  | some r0 => matchDMYAt r0

/-- The leading literal of the status-sentence pattern. -/
def PHRASE : List Char :=
  "Derzeit werden Anträge mit Eingangsdatum".data

/-- Match attempt of the status-sentence pattern
`Derzeit werden Anträge mit Eingangsdatum[^()]*\(Stand:\s*\d{2}\.\d{2}\.\d{4}\)\.?`
with `re.IGNORECASE` at the head of the input; returns the whole matched
substring (group 0). The run `[^()]*` excludes both parentheses while the
pattern requires `(` next, so the greedy scan is exact. -/
def statusMatchAt (cs : List Char) : Option (List Char) :=
  match ciDropLit PHRASE cs with
  | none => none
  | some (_, r1) =>
    match ciDropLit "(Stand:".data (munch (fun c => ¬(c = '(' ∨ c = ')')) r1).2 with
    | none => none
    | some (_, r3) =>
      match takeDigits 2 (munch isPySpace r3).2 with
      | none => none
      | some (_, r5) =>
        match expectChar '.' r5 with
        | none => none
        | some r6 =>
          match takeDigits 2 r6 with
          | none => none
          | some (_, r7) =>
            match expectChar '.' r7 with
            | none => none
            | some r8 =>
              match takeDigits 4 r8 with
              | none => none
              | some (_, r9) =>
                match expectChar ')' r9 with
                | none => none
                | some ('.' :: t) => some (cs.take (cs.length - t.length))
                | some r10 => some (cs.take (cs.length - r10.length))

/-- Python `str.strip`. -/
def pstrip (cs : List Char) : List Char :=
  ((cs.dropWhile isPySpace).reverse.dropWhile isPySpace).reverse

/-- The body of `parse_target_date` after a successful fuzzy match: month
lookup, qualifier lookup, day resolution, date construction
(`update_results.py` lines 104-123). -/
def resolveFuzzy (posOpt : Option (List Char)) (monthRaw yearRaw : List Char) :
    Except ParseErr Date :=
  match List.lookup (lowerGer monthRaw) GERMAN_MONTHS with
  | none => .error (.invalidMonth (String.mk monthRaw))
  | some month =>
    match posOpt with
    | some p =>
      match List.lookup (lowerGer p) POSITION_DAY with
      | none => .error (.unsupportedPosition (String.mk p))
      | some .last =>
        mkDate (natOfDigits yearRaw) month (monthrangeDays (natOfDigits yearRaw) month)
      | some (.fixed n) => mkDate (natOfDigits yearRaw) month n
    | none => mkDate (natOfDigits yearRaw) month 1

/-- `parse_target_date`: the explicit `bis DD.MM.YYYY` strategy first, the
fuzzy month-reference strategy only if the explicit one finds no match. -/
def parse_target_date (sentence : String) : Except ParseErr Date :=
  match searchFirst matchDirectAt sentence.data with
  | some (d, mo, y) => mkDate (natOfDigits y) (natOfDigits mo) (natOfDigits d)
  | none =>
    match searchFirst matchFuzzyAt sentence.data with
    | none => .error (.notFound "Target date not found in sentence.")
    | some (pos, m, y) => resolveFuzzy pos m y

/-- `parse_stand_date`. -/
def parse_stand_date (sentence : String) : Except ParseErr Date :=
  match searchFirst matchStandAt sentence.data with
  | none => .error (.notFound "Stand date not found in sentence.")
  | some (d, mo, y) => mkDate (natOfDigits y) (natOfDigits mo) (natOfDigits d)

/-- The simple (one-to-one) Unicode lower-casing the `sre` engine applies to
each character before an `IGNORECASE` comparison: `toLowerGer` extended with
the one extra code point relevant here, `İ` (U+0130), whose simple lowercase
is `i`. -/
def sreLower (c : Char) : Char :=
  if c = 'İ' then 'i' else toLowerGer c

/-- The rows of CPython `sre`'s extra case-equivalence table whose classes
meet the letters of this script's patterns: `i ↔ ı` (U+0131) and `s ↔ ſ`
(U+017F). The remaining rows pair Greek letters, the micro sign and the
long-s ligatures, none of which any pattern literal lowers to. -/
def sreEquivExtra (a b : Char) : Bool :=
  (a = 'i' && b = 'ı') || (a = 'ı' && b = 'i') ||
  (a = 's' && b = 'ſ') || (a = 'ſ' && b = 's')

/-- One `re.IGNORECASE` literal comparison as the `sre` engine performs it:
pattern character `p` matches input character `c` when their simple
lowercases are equal or extra-case-equivalent. -/
def sreCharMatch (p c : Char) : Bool :=
  sreLower c = sreLower p || sreEquivExtra (sreLower p) (sreLower c)

/-- Case-insensitive literal matching with the full `sre` comparison;
otherwise identical to `ciDropLit`. -/
def ciDropLitSre : List Char → List Char → Option (List Char × List Char)
  | [], cs => some ([], cs)
  | _ :: _, [] => none
  | p :: ps, c :: cs =>
    if sreCharMatch p c then
      match ciDropLitSre ps cs with
      | some (cap, r) => some (c :: cap, r)
      | none => none
    else none

/-- The class `[A-Za-zÄÖÜäöüß]` under `re.IGNORECASE` with the `sre`
equivalences: a character matches when its simple lowercase lies in the
lowered class or among the equivalents of its members (`ı` for `i`, `ſ` for
`s`); `İ` and the Kelvin sign lower into the class, `ẞ` lowers to `ß`. -/
def isGermanLetterSre (c : Char) : Bool :=
  isGermanLetter c || c = 'ı' || c = 'İ' || c = 'ſ' || c = 'ẞ' || c = 'K'

/-- `matchFuzzyTail` with the full `sre` character class. -/
def matchFuzzyTailSre (r : List Char) : Option (List Char × List Char) :=
  match munch isGermanLetterSre (munch isPySpace r).2 with
  | ([], _) => none
  | (c :: cs, r2) =>
    match takeDigits 4 (munch isPySpace r2).2 with
    | none => none
    | some (y, _) => some (c :: cs, y)

/-- `tryQualList` with the full `sre` literal comparison. -/
def tryQualListSre : List (List Char) → List Char →
    Option (Option (List Char) × List Char × List Char)
  | [], _ => none
  | q :: qs, r =>
    match ciDropLitSre q r with
    | some (cap, r2) =>
      match matchFuzzyTailSre r2 with
      | some (m, y) => some (some cap, m, y)
      | none => tryQualListSre qs r
    | none => tryQualListSre qs r

/-- `matchFuzzyAt` with the full `sre` case model; on texts free of the five
exotic code points it coincides with `matchFuzzyAt`. -/
def matchFuzzyAtSre (cs : List Char) :
    Option (Option (List Char) × List Char × List Char) :=
  match ciDropLitSre "bis".data cs with
  | none => none
  | some (_, r0) =>
    match tryQualListSre ["Anfang".data, "Mitte".data, "Ende".data]
        (munch isPySpace r0).2 with
    | some res => some res
    | none =>
      match matchFuzzyTailSre (munch isPySpace r0).2 with
      | some (m, y) => some (none, m, y)
      | none => none

/-- `parse_target_date` with the fuzzy strategy matched under the full `sre`
case model (the explicit strategy has no `IGNORECASE` flag and is shared). -/
def parse_target_dateSre (sentence : String) : Except ParseErr Date :=
  match searchFirst matchDirectAt sentence.data with
  | some (d, mo, y) => mkDate (natOfDigits y) (natOfDigits mo) (natOfDigits d)
  | none =>
    match searchFirst matchFuzzyAtSre sentence.data with
    | none => .error (.notFound "Target date not found in sentence.")
    | some (pos, m, y) => resolveFuzzy pos m y

/-- Events emitted by the HTML tokenizer; `data` records whether the text was
delivered in CDATA content mode (inside a `script` or `style` element), which
`html.parser` reports through the same `handle_data` callback as ordinary
character data. -/
inductive HtmlEvent where
  | data (cdata : Bool) (text : List Char)
  | startTag (name : List Char)
  | endTag (name : List Char)
  | comment (text : List Char)
  | markupDecl (text : List Char)
  | procInstr (text : List Char)
deriving DecidableEq, Repr

/-- Attempt to read a closing tag `</` `\s*` elem `\s*` `>` at the head of the
input, returning the rest after `>`. -/
def tryCloseAt (elem : List Char) (cs : List Char) : Option (List Char) := do
  let r1 ← dropLit "</".data cs
  let r2 := (munch isPySpace r1).2
  let (_, r3) ← ciDropLit elem r2
  let r4 := (munch isPySpace r3).2
  expectChar '>' r4

/-- Scan CDATA content for the closing tag of `elem`, returning the content
before it and the rest after it; `none` when no closing tag occurs (the
stdlib parser then buffers the content without emitting it). -/
def scanCdata (elem : List Char) : List Char → Option (List Char × List Char)
  | [] => none
  | c :: cs =>
    match tryCloseAt elem (c :: cs) with
    | some after => some ([], after)
    | none =>
      match scanCdata elem cs with
      | some (d, after) => some (c :: d, after)
      | none => none

/-- Scan for the literal `-->` that terminates a comment, returning the text
before it and the rest after it. -/
def scanCommentEnd : List Char → Option (List Char × List Char)
  | [] => none
  | c :: cs =>
    match dropLit "-->".data (c :: cs) with
    | some after => some ([], after)
    | none =>
      match scanCommentEnd cs with
      | some (d, after) => some (c :: d, after)
      | none => none

/-- Characters allowed after the first letter of a tag name. -/
def isTagNameChar (c : Char) : Bool :=
  ('A' ≤ c && c ≤ 'Z') || ('a' ≤ c && c ≤ 'z') || ('0' ≤ c && c ≤ '9') ||
  c = '-' || c = '.' || c = ':' || c = '_'

/-- One fuel-driven pass of the HTML tokenizer modelling the `html.parser`
event loop used by `_PlainTextExtractor`: text runs up to `<` become `data`
events, `<!--`/`<!`/`<?`/`</` and letter-initial tags are consumed to their
terminators, a `<` that opens no construct is emitted as literal data, and a
`script`/`style` start tag switches to CDATA content mode in which everything
up to the matching closing tag is delivered as `data`. Unterminated
constructs are buffered, never emitted. Each step consumes at least one
character, so fuel `cs.length + 1` never runs out. -/
def tokenizeAux : Nat → Option (List Char) → List Char → List HtmlEvent
  | 0, _, _ => []
  | fuel + 1, some elem, cs =>
    match scanCdata elem cs with
    | none => []
    | some (d, after) =>
      (if d = [] then [] else [HtmlEvent.data true d]) ++
        (HtmlEvent.endTag elem :: tokenizeAux fuel none after)
  | fuel + 1, none, cs =>
    match cs with
    | [] => []
    | _ :: _ =>
      let (txt, rest) := munch (fun c => ¬ c = '<') cs
      let txtEvents := if txt = [] then [] else [HtmlEvent.data false txt]
      txtEvents ++
        match rest with
        | [] => []
        | _ :: r1 =>
          match dropLit "!--".data r1 with
          | some r2 =>
            match scanCommentEnd r2 with
            | none => []
            | some (ctext, after) =>
              HtmlEvent.comment ctext :: tokenizeAux fuel none after
          | none =>
            match r1 with
            | [] => []
            | c2 :: r2 =>
              if c2 = '!' then
                match munch (fun c => ¬ c = '>') r2 with
                | (_, []) => []
                | (t, _ :: r3) => HtmlEvent.markupDecl t :: tokenizeAux fuel none r3
              else if c2 = '?' then
                match munch (fun c => ¬ c = '>') r2 with
                | (_, []) => []
                | (t, _ :: r3) => HtmlEvent.procInstr t :: tokenizeAux fuel none r3
              else if c2 = '/' then
                match munch (fun c => ¬ c = '>') r2 with
                | (_, []) => []
                | (t, _ :: r3) =>
                  HtmlEvent.endTag (lowerGer (munch isTagNameChar t).1) ::
                    tokenizeAux fuel none r3
              else if ('A' ≤ c2 && c2 ≤ 'Z') || ('a' ≤ c2 && c2 ≤ 'z') then
                match munch (fun c => ¬ c = '>') r1 with
                | (_, []) => []
                | (t, _ :: r3) =>
                  let name := lowerGer (munch isTagNameChar t).1
                  HtmlEvent.startTag name ::
                    (if name = "script".data || name = "style".data then
                      tokenizeAux fuel (some name) r3
                    else tokenizeAux fuel none r3)
              else
                HtmlEvent.data false ['<'] :: tokenizeAux fuel none r1

/-- Tokenize a whole document. -/
def tokenize (cs : List Char) : List HtmlEvent :=
  tokenizeAux (cs.length + 1) none cs

/-- The `_parts` list `_PlainTextExtractor.handle_data` accumulates: each data
event's text, stripped, kept when nonempty. -/
def parts (events : List HtmlEvent) : List (List Char) :=
  events.filterMap fun e =>
    match e with
    | .data _ d => if pstrip d = [] then none else some (pstrip d)
    | _ => none

/-- Python `" ".join`: the pieces concatenated with a single space between
consecutive pieces. -/
def joinSp : List (List Char) → List Char
  | [] => []
  | [p] => p
  | p :: ps => p ++ ' ' :: joinSp ps

/-- `_PlainTextExtractor.get_text`: the accumulated parts joined by single
spaces. -/
def get_text (events : List HtmlEvent) : List Char :=
  joinSp (parts events)

/-- Worker for Python `str.split()`: the first argument is the current
in-progress word, reversed; a whitespace character closes it, any other
character extends it. -/
def splitWsAux : List Char → List Char → List (List Char)
  | w, [] => if w = [] then [] else [w.reverse]
  | w, c :: cs =>
    if isPySpace c then
      if w = [] then splitWsAux [] cs else w.reverse :: splitWsAux [] cs
    else splitWsAux (c :: w) cs

/-- Python `str.split()` (split on whitespace runs, no empty words). -/
def splitWs (cs : List Char) : List (List Char) :=
  splitWsAux [] cs

/-- The normalized text of `extract_status_sentence` line 68:
`" ".join(parser.get_text().split())`. -/
def normalizedOf (html : String) : List Char :=
  joinSp (splitWs (get_text (tokenize html.data)))

/-- The full plain-text pipeline as a string. -/
def extractorText (html : String) : String :=
  String.mk (normalizedOf html)

/-- The sentence locator: first match of the status pattern in the normalized
text, trimmed; `ValueError` when there is none. -/
def locate_sentence (text : String) : Except String String :=
  match searchFirst statusMatchAt text.data with
  | some m => .ok (String.mk (pstrip m))
  | none => .error "Status sentence not found in HTML content."

/-- `extract_status_sentence`: plain-text extraction, whitespace
normalization, then the sentence search. -/
def extract_status_sentence (html : String) : Except String String :=
  locate_sentence (extractorText html)

/-- The persisted CSV store: `none` when the file does not exist, otherwise
the list of its records. -/
abbrev Store := Option (List (List String))

/-- The header record written on first use. -/
def header_row : List String :=
  ["retrieved_at", "stand_date", "status_text", "target_date"]

/-- `read_last_row`: the last record that is nonempty and whose first field is
not `"retrieved_at"`, scanning the file in order. -/
def read_last_row : Store → Option (List String)
  | none => none
  | some rows =>
    rows.foldl
      (fun last r =>
        if r = [] then last
        else if r.head? = some "retrieved_at" then last
        else some r)
      none

/-- `append_row_if_changed`: write nothing when the candidate equals the last
data row; otherwise append, preceded by the header when the file is new or
empty; returns whether a write happened. -/
def append_row_if_changed (store : Store) (row : List String) : Store × Bool :=
  if read_last_row store = some row then (store, false)
  else
    let rows := match store with
      | none => []
      | some rs => rs
    let base := if store = none ∨ rows = [] then rows ++ [header_row] else rows
    (some (base ++ [row]), true)

/-- Minimal-quoting CSV rendering of one field, as `csv.writer` with the
default dialect. -/
def csvField (f : String) : String :=
  if f.data.any (fun c => c = ',' || c = '"' || c = '\n' || c = '\r') then
    String.mk ('"' :: (f.data.flatMap fun c => if c = '"' then ['"', '"'] else [c]) ++ ['"'])
  else f

/-- CSV rendering of one record. -/
def csvLine (r : List String) : String :=
  String.intercalate "," (r.map csvField)

/-- Zero-padded two-digit rendering used by `date.isoformat`. -/
def pad2 (n : Nat) : String :=
  if n < 10 then "0" ++ toString n else toString n

/-- Zero-padded four-digit rendering used by `date.isoformat`. -/
def pad4 (n : Nat) : String :=
  if n < 10 then "000" ++ toString n
  else if n < 100 then "00" ++ toString n
  else if n < 1000 then "0" ++ toString n
  else toString n

/-- `date.isoformat`. -/
def isoDate (d : Date) : String :=
  pad4 d.year ++ "-" ++ pad2 d.month ++ "-" ++ pad2 d.day

/-- Error message rendering: `str(err)` for the `ValueError`s the parsers
raise. -/
def errString : ParseErr → String
  | .notFound m => m
  | .invalidMonth m => "Unknown month name: " ++ m
  | .unsupportedPosition p => "Unsupported position descriptor: " ++ p
  | .invalidDate m => m

/-- `collect_status` over the fetch collaborator's outcome: extraction, stand
date, target date; the first failure aborts the run. -/
def collect_status (fetched : Except String String) :
    Except String (String × Date × Date) := do
  let html ← fetched
  let sentence ← extract_status_sentence html
  let standD ← (parse_stand_date sentence).mapError errString
  let targetD ← (parse_target_date sentence).mapError errString
  pure (sentence, standD, targetD)

/-- Observable outcome of one run of `main`: the store after the run, the
process exit status, and the lines printed to stdout and stderr. -/
structure RunResult where
  store : Store
  exitCode : Nat
  stdout : List String
  stderr : List String
deriving DecidableEq, Repr

/-- `main`: catch any failure of `collect_status`, print one diagnostic line
to stderr and exit 1 without touching the store; on success assemble the row
for today and append it when changed, exiting 0 either way. The CSV path of
the command line is abstracted into `store`. -/
def main (fetched : Except String String) (today : String) (store : Store) :
    RunResult :=
  match collect_status fetched with
  | .error e => ⟨store, 1, [], ["error: " ++ e]⟩
  | .ok (sentence, standD, targetD) =>
    let row : List String := [today, isoDate standD, sentence, isoDate targetD]
    let res := append_row_if_changed store row
    if res.2 then
      ⟨res.1, 0, ["Appended new row for Stand " ++ isoDate standD], []⟩
    else
      ⟨res.1, 0, ["No change detected; CSV not modified."], []⟩

/-! Basic facts about the scanning combinators. -/

theorem munch_append (p : Char → Bool) : ∀ l : List Char, (munch p l).1 ++ (munch p l).2 = l
  | [] => rfl
  | c :: cs => by
    by_cases h : p c
    · simp only [munch, h, if_pos]
      simpa using munch_append p cs
    · simp [munch, h]

theorem munch_sat (p : Char → Bool) : ∀ l : List Char, ∀ c ∈ (munch p l).1, p c
  | [] => by simp [munch]
  | c :: cs => by
    by_cases h : p c
    · simp only [munch, h, if_pos]
      intro x hx
      rcases List.mem_cons.1 hx with h1 | h2
      · exact h1 ▸ h
      · exact munch_sat p cs x h2
    · simp [munch, h]

theorem dropLit_spec : ∀ pat cs r : List Char, dropLit pat cs = some r → cs = pat ++ r
  | [], cs, r, h => by
    simp only [dropLit, Option.some.injEq] at h
    simp [h]
  | _ :: _, [], _, h => by simp [dropLit] at h
  | p :: ps, c :: cs, r, h => by
    by_cases hc : c = p
    · simp only [dropLit, hc, if_pos] at h
      have := dropLit_spec ps cs r h
      simp [hc, this]
    · simp [dropLit, hc] at h

theorem ciDropLit_spec : ∀ pat cs cap r : List Char, ciDropLit pat cs = some (cap, r) →
    lowerGer cap = lowerGer pat ∧ cs = cap ++ r
  | [], cs, cap, r, h => by
    simp only [ciDropLit, Option.some.injEq, Prod.mk.injEq] at h
    simp [← h.1, ← h.2]
  | _ :: _, [], _, _, h => by simp [ciDropLit] at h
  | p :: ps, c :: cs, cap, r, h => by
    by_cases hc : toLowerGer c = toLowerGer p
    · simp only [ciDropLit, hc, if_pos] at h
      cases hrec : ciDropLit ps cs with
      | none => rw [hrec] at h; cases h
      | some pr =>
        obtain ⟨cap', r'⟩ := pr
        rw [hrec] at h
        simp only [Option.some.injEq, Prod.mk.injEq] at h
        obtain ⟨hcap, hr⟩ := h
        have := ciDropLit_spec ps cs cap' r' hrec
        subst hcap hr
        simp [lowerGer, hc, this.2]
        exact (by simpa [lowerGer] using this.1)
    · simp [ciDropLit, hc] at h

theorem takeDigits_spec : ∀ n (cs d r : List Char), takeDigits n cs = some (d, r) →
    cs = d ++ r ∧ d.length = n ∧ ∀ c ∈ d, isDigit c
  | 0, cs, d, r, h => by
    simp only [takeDigits, Option.some.injEq, Prod.mk.injEq] at h
    simp [← h.1, ← h.2]
  | _ + 1, [], _, _, h => by simp [takeDigits] at h
  | n + 1, c :: cs, d, r, h => by
    by_cases hc : isDigit c
    · simp only [takeDigits, hc, if_pos] at h
      cases hrec : takeDigits n cs with
      | none => rw [hrec] at h; cases h
      | some pr =>
        obtain ⟨d', r'⟩ := pr
        rw [hrec] at h
        simp only [Option.some.injEq, Prod.mk.injEq] at h
        obtain ⟨hd, hr⟩ := h
        have := takeDigits_spec n cs d' r' hrec
        subst hd hr
        refine ⟨by simp [this.1], by simp [this.2.1], ?_⟩
        intro x hx
        rcases List.mem_cons.1 hx with h1 | h2
        · exact h1 ▸ hc
        · exact this.2.2 x h2
    · simp [takeDigits, hc] at h

theorem expectChar_spec (c : Char) : ∀ cs r : List Char, expectChar c cs = some r → cs = c :: r
  | [], _, h => by simp [expectChar] at h
  | c' :: cs, r, h => by
    by_cases hc : c' = c
    · simp only [expectChar, hc, if_pos, Option.some.injEq] at h
      simp [hc, h]
    · simp [expectChar, hc] at h

theorem searchFirst_eq_some_iff {α : Type} (mf : List Char → Option α) :
    ∀ (cs : List Char) (r : α), searchFirst mf cs = some r ↔
      ∃ i, mf (cs.drop i) = some r ∧ ∀ j < i, mf (cs.drop j) = none
  | [], r => by
    simp only [searchFirst, List.drop_nil]
    constructor
    · intro h; exact ⟨0, h, by omega⟩
    · rintro ⟨i, hi, _⟩; exact hi
  | c :: cs, r => by
    cases hm : mf (c :: cs) with
    | some r' =>
      simp only [searchFirst, hm]
      constructor
      · intro h
        exact ⟨0, by simpa [hm] using h, by omega⟩
      · rintro ⟨i, hi, hlt⟩
        cases i with
        | zero => simp only [List.drop_zero] at hi; rw [hm] at hi; exact hi
        | succ i' =>
          have := hlt 0 (by omega)
          simp only [List.drop_zero] at this
          rw [hm] at this; cases this
    | none =>
      simp only [searchFirst, hm]
      rw [searchFirst_eq_some_iff mf cs r]
      constructor
      · rintro ⟨i, hi, hlt⟩
        refine ⟨i + 1, by simpa using hi, ?_⟩
        intro j hj
        cases j with
        | zero => simpa using hm
        | succ j' => simpa using hlt j' (by omega)
      · rintro ⟨i, hi, hlt⟩
        cases i with
        | zero => simp only [List.drop_zero] at hi; rw [hm] at hi; cases hi
        | succ i' =>
          refine ⟨i', by simpa using hi, ?_⟩
          intro j hj
          simpa using hlt (j + 1) (by omega)

theorem searchFirst_eq_none_iff {α : Type} (mf : List Char → Option α) :
    ∀ cs : List Char, searchFirst mf cs = none ↔ ∀ i, mf (cs.drop i) = none
  | [] => by
    simp only [searchFirst, List.drop_nil]
    constructor
    · intro h _; exact h
    · intro h; exact h 0
  | c :: cs => by
    cases hm : mf (c :: cs) with
    | some r' =>
      simp only [searchFirst, hm]
      constructor
      · intro h; cases h
      · intro h
        have := h 0
        simp only [List.drop_zero] at this
        rw [hm] at this; cases this
    | none =>
      simp only [searchFirst, hm]
      rw [searchFirst_eq_none_iff mf cs]
      constructor
      · intro h i
        cases i with
        | zero => simpa using hm
        | succ i' => simpa using h i'
      · intro h i
        simpa using h (i + 1)

theorem searchFirst_prop {α : Type} (mf : List Char → Option α) (Q : α → Prop)
    (hm : ∀ t r, mf t = some r → Q r) :
    ∀ (cs : List Char) (r : α), searchFirst mf cs = some r → Q r
  | [], r, h => hm [] r h
  | c :: cs, r, h => by
    revert h
    cases hmc : mf (c :: cs) with
    | some r' =>
      intro h
      simp only [searchFirst, hmc, Option.some.injEq] at h
      exact h ▸ hm (c :: cs) r' hmc
    | none =>
      intro h
      simp only [searchFirst, hmc] at h
      exact searchFirst_prop mf Q hm cs r h

/-! Facts about the ledger. -/

theorem read_last_row_nil : read_last_row (some []) = none := rfl

theorem read_last_row_some_ne_nil (rows : List (List String)) (last : List String)
    (h : read_last_row (some rows) = some last) : rows ≠ [] := by
  intro hr
  subst hr
  simp [read_last_row] at h

end UpdateResults

namespace UpdateResults

/-- C1 (corrected): `append_row_if_changed` compares the candidate against the
last stored row on ALL four columns, `retrieved_at` included: when the last
row is identical nothing is written and `false` is returned, and when the two
rows differ anywhere — in particular when only `retrieved_at` differs — the
row IS appended and `true` returned. -/
theorem spec_c1 (rows : List (List String)) (cand last : List String)
    (hlast : read_last_row (some rows) = some last) :
    (last = cand → append_row_if_changed (some rows) cand = (some rows, false)) ∧
    (last ≠ cand → append_row_if_changed (some rows) cand = (some (rows ++ [cand]), true)) := by
  constructor
  · intro h
    subst h
    simp [append_row_if_changed, hlast]
  · intro h
    have hne : rows ≠ [] := read_last_row_some_ne_nil rows last hlast
    simp [append_row_if_changed, hlast, h, hne]

/-- C1 witness: a store whose last row agrees with the candidate on columns
2-4 but not on `retrieved_at` gets a new row appended. -/
theorem spec_c1_witness :
    append_row_if_changed
        (some [["retrieved_at", "stand_date", "status_text", "target_date"],
               ["2025-02-22", "2025-08-28", "s", "2023-04-30"]])
        ["2025-02-23", "2025-08-28", "s", "2023-04-30"] =
      (some [["retrieved_at", "stand_date", "status_text", "target_date"],
             ["2025-02-22", "2025-08-28", "s", "2023-04-30"],
             ["2025-02-23", "2025-08-28", "s", "2023-04-30"]], true) :=
  (spec_c1 _ ["2025-02-23", "2025-08-28", "s", "2023-04-30"]
      ["2025-02-22", "2025-08-28", "s", "2023-04-30"] (by decide)).2 (by decide)

/-- C1 counterexample: the claim predicts no write and `false` for a candidate
differing from the last row only in the `retrieved_at` column; the code
writes the row and returns `true`. -/
theorem spec_c1_counterexample :
    (["2025-02-22", "2025-08-28", "s", "2023-04-30"] : List String).drop 1 =
      (["2025-02-23", "2025-08-28", "s", "2023-04-30"] : List String).drop 1 ∧
    (append_row_if_changed
        (some [["retrieved_at", "stand_date", "status_text", "target_date"],
               ["2025-02-22", "2025-08-28", "s", "2023-04-30"]])
        ["2025-02-23", "2025-08-28", "s", "2023-04-30"]).2 = true := by
  decide

/-- C4 (confirmed): appending the same data row twice starting from an absent
store writes header plus that row once and returns `true`, then detects no
change, writes nothing and returns `false`. -/
theorem spec_c4 (row : List String) (hne : row ≠ [])
    (hhd : row.head? ≠ some "retrieved_at") :
    append_row_if_changed none row = (some [header_row, row], true) ∧
    append_row_if_changed (some [header_row, row]) row = (some [header_row, row], false) := by
  constructor
  · simp [append_row_if_changed, read_last_row]
  · have hlast : read_last_row (some [header_row, row]) = some row := by
      simp [read_last_row, List.foldl, hne, hhd, header_row]
    simp [append_row_if_changed, hlast]

/-- C4 witness at a concrete data row. -/
theorem spec_c4_witness :
    append_row_if_changed none ["2025-02-22", "2025-08-28", "s", "2023-04-30"] =
      (some [header_row, ["2025-02-22", "2025-08-28", "s", "2023-04-30"]], true) ∧
    append_row_if_changed (some [header_row, ["2025-02-22", "2025-08-28", "s", "2023-04-30"]])
        ["2025-02-22", "2025-08-28", "s", "2023-04-30"] =
      (some [header_row, ["2025-02-22", "2025-08-28", "s", "2023-04-30"]], false) :=
  spec_c4 ["2025-02-22", "2025-08-28", "s", "2023-04-30"] (by decide) (by decide)

/-- C5 (confirmed): appending any row to a nonexistent or empty store creates
header plus exactly that row and returns `true`; the header record renders to
the literal header line. -/
theorem spec_c5 (row : List String) (store : Store)
    (h : store = none ∨ store = some []) :
    append_row_if_changed store row = (some [header_row, row], true) ∧
    csvLine header_row = "retrieved_at,stand_date,status_text,target_date" := by
  refine ⟨?_, by decide⟩
  rcases h with h | h <;> subst h <;> simp [append_row_if_changed, read_last_row]

/-- C5 witness at a concrete row, for both the absent and the empty store. -/
theorem spec_c5_witness :
    append_row_if_changed none ["2025-02-22", "2025-08-28", "s", "2023-04-30"] =
      (some [header_row, ["2025-02-22", "2025-08-28", "s", "2023-04-30"]], true) ∧
    append_row_if_changed (some []) ["2025-02-22", "2025-08-28", "s", "2023-04-30"] =
      (some [header_row, ["2025-02-22", "2025-08-28", "s", "2023-04-30"]], true) :=
  ⟨(spec_c5 ["2025-02-22", "2025-08-28", "s", "2023-04-30"] none (Or.inl rfl)).1,
   (spec_c5 ["2025-02-22", "2025-08-28", "s", "2023-04-30"] (some []) (Or.inr rfl)).1⟩

/-! Facts about the date parsers. -/

theorem mkDate_ne_unsupported (y m d : Nat) (p : String) :
    mkDate y m d ≠ .error (.unsupportedPosition p) := by
  unfold mkDate
  split
  · intro h; cases h
  · split
    · intro h; cases h
    · split
      · intro h; cases h
      · intro h; cases h

theorem mkDate_ne_invalidMonth (y m d : Nat) (p : String) :
    mkDate y m d ≠ .error (.invalidMonth p) := by
  unfold mkDate
  split
  · intro h; cases h
  · split
    · intro h; cases h
    · split
      · intro h; cases h
      · intro h; cases h

/-- The month numbers of the `GERMAN_MONTHS` table lie in 1..12. -/
theorem GERMAN_MONTHS_range (k : List Char) (mo : Nat)
    (h : List.lookup k GERMAN_MONTHS = some mo) : 1 ≤ mo ∧ mo ≤ 12 := by
  simp only [GERMAN_MONTHS, List.lookup] at h
  repeat' split at h
  all_goals first
    | (simp only [Option.some.injEq] at h; omega)
    | (cases h)

/-- Every month has at least 28 days. -/
theorem monthrangeDays_ge (y m : Nat) (h1 : 1 ≤ m) (h2 : m ≤ 12) :
    28 ≤ monthrangeDays y m := by
  interval_cases m <;> simp [monthrangeDays, mdays]

/-- Every month has at most 31 days. -/
theorem monthrangeDays_le (y m : Nat) (h1 : 1 ≤ m) (h2 : m ≤ 12) :
    monthrangeDays y m ≤ 31 := by
  interval_cases m <;> simp [monthrangeDays, mdays] <;> split <;> omega

/-- The last calendar day of a month, stated by the calendar rules: February
has 29 days in leap years and 28 otherwise; April, June, September and
November have 30; the rest have 31. -/
def lastDayOfMonth (m y : Nat) : Nat :=
  if m = 2 then (if isleap y then 29 else 28)
  else if m = 4 ∨ m = 6 ∨ m = 9 ∨ m = 11 then 30
  else 31

/-- `calendar.monthrange` agrees with the calendar rules. -/
theorem monthrangeDays_eq_lastDayOfMonth (y m : Nat) (h1 : 1 ≤ m) (h2 : m ≤ 12) :
    monthrangeDays y m = lastDayOfMonth m y := by
  interval_cases m <;>
    cases h : isleap y <;> simp [monthrangeDays, lastDayOfMonth, mdays, h]

/-- A successful fuzzy match captures the year as exactly four digits. -/
theorem matchFuzzyTail_year (r m y : List Char) (h : matchFuzzyTail r = some (m, y)) :
    y.length = 4 ∧ ∀ c ∈ y, isDigit c := by
  unfold matchFuzzyTail at h
  split at h
  · cases h
  · split at h
    · cases h
    next c cs r2 heq yy rr ht =>
      simp only [Option.some.injEq, Prod.mk.injEq] at h
      have := takeDigits_spec 4 _ yy rr ht
      exact h.2 ▸ ⟨this.2.1, this.2.2⟩

/-- A qualifier captured by `tryQualList` stems from one of its literal
alternatives, and the year group is four digits. -/
theorem tryQualList_spec : ∀ (qs : List (List Char)) (r : List Char)
    (pos : Option (List Char)) (m y : List Char),
    tryQualList qs r = some (pos, m, y) →
    (∃ p, pos = some p ∧ ∃ q ∈ qs, lowerGer p = lowerGer q) ∧
      y.length = 4 ∧ ∀ c ∈ y, isDigit c
  | [], _, _, _, _, h => by simp [tryQualList] at h
  | q :: qs, r, pos, m, y, h => by
    unfold tryQualList at h
    split at h
    next cap r2 hd =>
      split at h
      next mm yy ht =>
        simp only [Option.some.injEq, Prod.mk.injEq] at h
        obtain ⟨hpos, hm, hy⟩ := h
        have hcap := ciDropLit_spec q r cap r2 hd
        have hyy := matchFuzzyTail_year r2 mm yy ht
        exact ⟨⟨cap, hpos.symm, q, .head _, hcap.1⟩, hy ▸ hyy⟩
      next =>
        have := tryQualList_spec qs r pos m y h
        obtain ⟨⟨p, hp, q', hq', hl⟩, hy⟩ := this
        exact ⟨⟨p, hp, q', .tail _ hq', hl⟩, hy⟩
    next =>
      have := tryQualList_spec qs r pos m y h
      obtain ⟨⟨p, hp, q', hq', hl⟩, hy⟩ := this
      exact ⟨⟨p, hp, q', .tail _ hq', hl⟩, hy⟩

/-- Structure of a successful fuzzy match: the captured qualifier, when
present, is a case variant of `Anfang`, `Mitte` or `Ende`, and the year group
is exactly four digits. -/
theorem matchFuzzyAt_spec (cs : List Char) (pos : Option (List Char)) (m y : List Char)
    (h : matchFuzzyAt cs = some (pos, m, y)) :
    (∀ p, pos = some p →
      lowerGer p = "anfang".data ∨ lowerGer p = "mitte".data ∨ lowerGer p = "ende".data) ∧
      y.length = 4 ∧ ∀ c ∈ y, isDigit c := by
  unfold matchFuzzyAt at h
  split at h
  · cases h
  next cap0 r0 hb =>
    split at h
    next res hq =>
      simp only [Option.some.injEq] at h
      obtain ⟨p0, m0, y0⟩ := res
      obtain ⟨⟨p, hp, q, hq2, hlq⟩, hy4⟩ :=
        tryQualList_spec ["Anfang".data, "Mitte".data, "Ende".data] _ p0 m0 y0 hq
      cases h
      refine ⟨fun p' hp' => ?_, hy4⟩
      rw [hp] at hp'
      cases hp'
      simp only [List.mem_cons, List.not_mem_nil, or_false] at hq2
      rcases hq2 with h1 | h1 | h1
      · left; rw [hlq, h1]; decide
      · right; left; rw [hlq, h1]; decide
      · right; right; rw [hlq, h1]; decide
    next hq =>
      split at h
      next mm yy ht =>
        simp only [Option.some.injEq, Prod.mk.injEq] at h
        obtain ⟨hpos, hm, hy⟩ := h
        refine ⟨?_, ?_⟩
        · intro p hp
          rw [← hpos] at hp
          cases hp
        · have := matchFuzzyTail_year _ mm yy ht
          exact hy ▸ this
      next => cases h

theorem natOfDigits_foldl_lt (f : Nat → Char → Nat)
    (hf : f = fun a c => 10 * a + (c.toNat - 48)) :
    ∀ (ds : List Char) (a : Nat), (∀ c ∈ ds, isDigit c) →
      List.foldl f a ds < 10 ^ ds.length * (a + 1)
  | [], a, _ => by simp
  | c :: ds, a, h => by
    have hc : isDigit c := h c (.head _)
    have hd9 : c.toNat - 48 ≤ 9 := by
      simp only [isDigit, Bool.and_eq_true, decide_eq_true_eq] at hc
      omega
    have ih := natOfDigits_foldl_lt f hf ds (f a c) (fun x hx => h x (.tail _ hx))
    calc List.foldl f (f a c) ds < 10 ^ ds.length * (f a c + 1) := ih
      _ ≤ 10 ^ ds.length * (10 * (a + 1)) := by
          refine Nat.mul_le_mul_left _ ?_
          rw [hf]
          simp only
          omega
      _ = 10 ^ (ds.length + 1) * (a + 1) := by ring
      _ = 10 ^ (c :: ds).length * (a + 1) := by simp

theorem natOfDigits_lt (ds : List Char) (h : ∀ c ∈ ds, isDigit c) :
    natOfDigits ds < 10 ^ ds.length := by
  have := natOfDigits_foldl_lt _ rfl ds 0 h
  simpa [natOfDigits] using this

theorem mkDate_ok (y m d : Nat) (h1 : 1 ≤ y) (h2 : y ≤ 9999) (h3 : 1 ≤ m)
    (h4 : m ≤ 12) (h5 : 1 ≤ d) (h6 : d ≤ monthrangeDays y m) :
    mkDate y m d = .ok ⟨y, m, d⟩ := by
  unfold mkDate
  rw [if_neg (not_not_intro ⟨h1, h2⟩), if_neg (not_not_intro ⟨h3, h4⟩),
    if_neg (not_not_intro ⟨h5, h6⟩)]

/-- The day the specification's convention assigns to a fuzzy month
reference: qualifier `Anfang` (any casing) gives 5, `Mitte` 15, `Ende` the
last calendar day, an absent qualifier 1. -/
def fuzzyDay (pos : Option (List Char)) (m y : Nat) : Nat :=
  match pos with
  | none => 1
  | some p =>
    if lowerGer p = "anfang".data then 5
    else if lowerGer p = "mitte".data then 15
    else lastDayOfMonth m y

end UpdateResults

namespace UpdateResults

/-- C3 (confirmed): whenever the explicit `bis DD.MM.YYYY` pattern matches
somewhere in the sentence, `parse_target_date` returns the date built from
that match alone; the fuzzy strategy is never consulted. -/
theorem spec_c3 (s : String) (d mo y : List Char)
    (h : searchFirst matchDirectAt s.data = some (d, mo, y)) :
    parse_target_date s = mkDate (natOfDigits y) (natOfDigits mo) (natOfDigits d) := by
  unfold parse_target_date
  rw [h]

/-- C3 witness: a sentence in which both the explicit clause and the fuzzy
clause could match resolves to the explicit date 2024-05-15. -/
theorem spec_c3_witness :
    searchFirst matchFuzzyAt
        "Anträge bis Ende Mai 2024, spätestens bis 15.05.2024".data ≠ none ∧
    parse_target_date "Anträge bis Ende Mai 2024, spätestens bis 15.05.2024" =
      .ok ⟨2024, 5, 15⟩ :=
  ⟨by decide,
   (spec_c3 "Anträge bis Ende Mai 2024, spätestens bis 15.05.2024"
      "15".data "05".data "2024".data (by decide)).trans (by decide)⟩

theorem toLowerGer_eq_dotless (c : Char) (h : toLowerGer c = 'ı') : c = 'ı' := by
  unfold toLowerGer at h
  split_ifs at h with h1 h2 h3 h4
  · exfalso
    simp only [Bool.and_eq_true, decide_eq_true_eq] at h1
    have hb := h1.2
    rw [Char.le_def, UInt32.le_def] at hb
    have hb2 := BitVec.le_def.mp hb
    have hle : c.toNat ≤ 90 := by
      simpa [Char.toNat, UInt32.toNat] using hb2
    have hv : Nat.isValidChar (c.toNat + 32) := Or.inl (by omega)
    have ht : (Char.ofNat (c.toNat + 32)).toNat = c.toNat + 32 := by
      unfold Char.ofNat
      rw [dif_pos hv]
      rfl
    rw [h] at ht
    have h305 : ('ı').toNat = 305 := by decide
    rw [h305] at ht
    omega
  · exact absurd h (by decide)
  · exact absurd h (by decide)
  · exact absurd h (by decide)
  · exact h

/-- An `sre` character match against a pattern character whose lowercase is
none of `ı`, `s`, `ſ` (and which is not `İ`), by an input character that is
neither `ı` nor `İ`, is an ordinary case-insensitive match. -/
theorem sreCharMatch_lower (p c : Char) (h : sreCharMatch p c = true)
    (hp1 : toLowerGer p ≠ 'ı') (hp2 : toLowerGer p ≠ 's') (hp3 : toLowerGer p ≠ 'ſ')
    (hp4 : p ≠ 'İ') (hc1 : c ≠ 'ı') (hc2 : c ≠ 'İ') :
    toLowerGer c = toLowerGer p := by
  unfold sreCharMatch sreLower at h
  rw [if_neg hc2, if_neg hp4] at h
  simp only [Bool.or_eq_true, decide_eq_true_eq] at h
  rcases h with h | h
  · exact h
  · exfalso
    unfold sreEquivExtra at h
    simp only [Bool.or_eq_true, Bool.and_eq_true, decide_eq_true_eq] at h
    rcases h with ((⟨hpi, hci⟩ | ⟨hpi, hci⟩) | ⟨hpi, hci⟩) | ⟨hpi, hci⟩
    · exact hc1 (toLowerGer_eq_dotless c hci)
    · exact hp1 hpi
    · exact hp2 hpi
    · exact hp3 hpi

theorem ciDropLitSre_spec : ∀ pat cs cap r : List Char,
    ciDropLitSre pat cs = some (cap, r) →
    cs = cap ++ r ∧ List.Forall₂ (fun a b => sreCharMatch a b = true) pat cap
  | [], cs, cap, r, h => by
    simp only [ciDropLitSre, Option.some.injEq, Prod.mk.injEq] at h
    refine ⟨by simp [← h.1, ← h.2], ?_⟩
    rw [← h.1]
    exact List.Forall₂.nil
  | _ :: _, [], _, _, h => by simp [ciDropLitSre] at h
  | p :: ps, c :: cs, cap, r, h => by
    by_cases hc : sreCharMatch p c
    · simp only [ciDropLitSre, hc, if_pos] at h
      cases hrec : ciDropLitSre ps cs with
      | none => rw [hrec] at h; cases h
      | some pr =>
        obtain ⟨cap', r'⟩ := pr
        rw [hrec] at h
        simp only [Option.some.injEq, Prod.mk.injEq] at h
        obtain ⟨hcap, hr⟩ := h
        have := ciDropLitSre_spec ps cs cap' r' hrec
        subst hcap hr
        exact ⟨by simp [this.1], List.Forall₂.cons hc this.2⟩
    · simp [ciDropLitSre, hc] at h

/-- A pointwise `sre`-matched capture of a pattern word free of the exotic
letters, itself free of `ı` and `İ`, lowercases to the word's lowercase. -/
theorem sre_capture_lower : ∀ q cap : List Char,
    (∀ pc ∈ q, toLowerGer pc ≠ 'ı' ∧ toLowerGer pc ≠ 's' ∧
      toLowerGer pc ≠ 'ſ' ∧ pc ≠ 'İ') →
    (∀ c ∈ cap, c ≠ 'ı' ∧ c ≠ 'İ') →
    List.Forall₂ (fun a b => sreCharMatch a b = true) q cap →
    lowerGer cap = lowerGer q
  | [], [], _, _, _ => rfl
  | [], _ :: _, _, _, h => by cases h
  | _ :: _, [], _, _, h => by cases h
  | p :: q, c :: cap, hq, hcap, h => by
    cases h with
    | cons hab htail =>
      have hqh := hq p (.head _)
      have hch := hcap c (.head _)
      have hhd := sreCharMatch_lower p c hab hqh.1 hqh.2.1 hqh.2.2.1 hqh.2.2.2
        hch.1 hch.2
      have htl := sre_capture_lower q cap (fun x hx => hq x (.tail _ hx))
        (fun x hx => hcap x (.tail _ hx)) htail
      simp only [lowerGer, List.map_cons]
      simp only [lowerGer] at htl
      rw [hhd, htl]

/-- A qualifier captured by `tryQualListSre` is a pointwise `sre` match of
one of its literal alternatives. -/
theorem tryQualListSre_spec : ∀ (qs : List (List Char)) (r : List Char)
    (pos : Option (List Char)) (m y : List Char),
    tryQualListSre qs r = some (pos, m, y) →
    ∀ pp, pos = some pp →
      ∃ q ∈ qs, List.Forall₂ (fun a b => sreCharMatch a b = true) q pp
  | [], _, _, _, _, h => by simp [tryQualListSre] at h
  | q :: qs, r, pos, m, y, h => by
    unfold tryQualListSre at h
    split at h
    next cap r2 hd =>
      split at h
      next mm yy ht =>
        simp only [Option.some.injEq, Prod.mk.injEq] at h
        obtain ⟨hpos, hm, hy⟩ := h
        intro pp hpp
        rw [← hpos] at hpp
        injection hpp with hpp
        have hcd := ciDropLitSre_spec q r cap r2 hd
        exact ⟨q, .head _, hpp ▸ hcd.2⟩
      next =>
        intro pp hpp
        obtain ⟨q', hq', hfa⟩ := tryQualListSre_spec qs r pos m y h pp hpp
        exact ⟨q', .tail _ hq', hfa⟩
    next =>
      intro pp hpp
      obtain ⟨q', hq', hfa⟩ := tryQualListSre_spec qs r pos m y h pp hpp
      exact ⟨q', .tail _ hq', hfa⟩

/-- A qualifier captured by a successful `matchFuzzyAtSre` is a pointwise
`sre` match of `Anfang`, `Mitte` or `Ende`. -/
theorem matchFuzzyAtSre_spec (cs : List Char) (pos : Option (List Char))
    (m y : List Char) (h : matchFuzzyAtSre cs = some (pos, m, y)) :
    ∀ pp, pos = some pp →
      ∃ q ∈ ["Anfang".data, "Mitte".data, "Ende".data],
        List.Forall₂ (fun a b => sreCharMatch a b = true) q pp := by
  unfold matchFuzzyAtSre at h
  split at h
  · cases h
  next cap0 r0 hb =>
    split at h
    next res hq =>
      simp only [Option.some.injEq] at h
      obtain ⟨p0, m0, y0⟩ := res
      simp only [Prod.mk.injEq] at h
      obtain ⟨h1, h2, h3⟩ := h
      subst h1 h2 h3
      intro pp hpp
      exact tryQualListSre_spec _ _ _ _ _ hq pp hpp
    next hq =>
      split at h
      next mm yy ht =>
        simp only [Option.some.injEq, Prod.mk.injEq] at h
        obtain ⟨hpos, hm, hy⟩ := h
        intro pp hpp
        rw [← hpos] at hpp
        cases hpp
      next => cases h

/-- C10 counterexample: under CPython `sre`'s extra case equivalences the
qualifier group of the fuzzy pattern matches `Mıtte` (dotless `ı` matching
the `i` of `Mitte`), whose `str.lower` is not a `POSITION_DAY` key, so
`parse_target_date` raises the `Unsupported position descriptor` error the
claim says is unreachable. -/
theorem spec_c10_counterexample :
    parse_target_dateSre "bis Mıtte Februar 2024" =
      .error (.unsupportedPosition "Mıtte") := by
  decide

/-- C10 (corrected): the `Unsupported position descriptor` error of
`parse_target_date` is reachable only through `re.IGNORECASE`'s extra case
equivalences: whenever the reported qualifier contains neither dotless `ı`
(U+0131) nor `İ` (U+0130) — in particular for every sentence over the
ASCII/German alphabet — the error cannot occur, because the qualifier group
then only captures ordinary case variants of `Anfang`, `Mitte` or `Ende`,
all keys of `POSITION_DAY`. -/
theorem spec_c10 (s : String) (p : String)
    (hp : 'ı' ∉ p.data ∧ 'İ' ∉ p.data) :
    parse_target_dateSre s ≠ .error (.unsupportedPosition p) := by
  cases hd : searchFirst matchDirectAt s.data with
  | some t =>
    obtain ⟨d, mo, y⟩ := t
    have he : parse_target_dateSre s =
        mkDate (natOfDigits y) (natOfDigits mo) (natOfDigits d) := by
      unfold parse_target_dateSre
      rw [hd]
    rw [he]
    exact mkDate_ne_unsupported _ _ _ p
  | none =>
    cases hf : searchFirst matchFuzzyAtSre s.data with
    | none =>
      have he : parse_target_dateSre s =
          .error (.notFound "Target date not found in sentence.") := by
        unfold parse_target_dateSre
        rw [hd, hf]
      rw [he]
      intro h
      cases h
    | some t =>
      obtain ⟨pos, m, y⟩ := t
      have he : parse_target_dateSre s = resolveFuzzy pos m y := by
        unfold parse_target_dateSre
        rw [hd, hf]
      rw [he]
      have hq := searchFirst_prop matchFuzzyAtSre
        (fun r => ∀ pp, r.1 = some pp →
          ∃ q ∈ ["Anfang".data, "Mitte".data, "Ende".data],
            List.Forall₂ (fun a b => sreCharMatch a b = true) q pp)
        (fun t r hr => by
          obtain ⟨pp, mm, yy⟩ := r
          exact matchFuzzyAtSre_spec t pp mm yy hr)
        s.data (pos, m, y) hf
      cases hm : List.lookup (lowerGer m) GERMAN_MONTHS with
      | none =>
        have hr : resolveFuzzy pos m y = .error (.invalidMonth (String.mk m)) := by
          unfold resolveFuzzy
          rw [hm]
        rw [hr]
        intro h
        cases h
      | some month =>
        cases pos with
        | none =>
          have hr : resolveFuzzy none m y = mkDate (natOfDigits y) month 1 := by
            unfold resolveFuzzy
            rw [hm]
          rw [hr]
          exact mkDate_ne_unsupported _ _ _ p
        | some pp =>
          cases hpl : List.lookup (lowerGer pp) POSITION_DAY with
          | some dr =>
            cases dr with
            | fixed n =>
              have hr : resolveFuzzy (some pp) m y =
                  mkDate (natOfDigits y) month n := by
                unfold resolveFuzzy
                simp only [hm, hpl]
              rw [hr]
              exact mkDate_ne_unsupported _ _ _ p
            | last =>
              have hr : resolveFuzzy (some pp) m y =
                  mkDate (natOfDigits y) month
                    (monthrangeDays (natOfDigits y) month) := by
                unfold resolveFuzzy
                simp only [hm, hpl]
              rw [hr]
              exact mkDate_ne_unsupported _ _ _ p
          | none =>
            have hr : resolveFuzzy (some pp) m y =
                .error (.unsupportedPosition (String.mk pp)) := by
              unfold resolveFuzzy
              simp only [hm, hpl]
            rw [hr]
            intro heq
            injection heq with heq
            injection heq with heq
            have hppd : pp = p.data := by
              have := congrArg String.data heq
              simpa using this
            have hcap : ∀ c ∈ pp, c ≠ 'ı' ∧ c ≠ 'İ' := by
              intro c hc
              rw [hppd] at hc
              exact ⟨fun hcc => hp.1 (hcc ▸ hc), fun hcc => hp.2 (hcc ▸ hc)⟩
            obtain ⟨q, hqmem, hfa⟩ := hq pp rfl
            simp only [List.mem_cons, List.not_mem_nil, or_false] at hqmem
            rcases hqmem with h1 | h1 | h1 <;> subst h1
            · have hlow := sre_capture_lower _ pp (by decide) hcap hfa
              rw [hlow] at hpl
              exact absurd hpl (by decide)
            · have hlow := sre_capture_lower _ pp (by decide) hcap hfa
              rw [hlow] at hpl
              exact absurd hpl (by decide)
            · have hlow := sre_capture_lower _ pp (by decide) hcap hfa
              rw [hlow] at hpl
              exact absurd hpl (by decide)

/-- C10 witness: for a qualifier free of the exotic letters the error indeed
cannot occur. -/
theorem spec_c10_witness :
    parse_target_dateSre "bis Mitte Februar 2024" ≠
      .error (.unsupportedPosition "Mitte") :=
  spec_c10 "bis Mitte Februar 2024" "Mitte" (by decide)

/-- C2 (confirmed): when only the fuzzy strategy matches and the month word
is in the table, the target date is the matched year and month with the day
resolved by the convention: `Anfang` 5, `Mitte` 15, `Ende` the last calendar
day of that month and year by the leap-year rules, no qualifier 1. -/
theorem spec_c2 (s : String) (pos : Option (List Char)) (m y : List Char) (mo : Nat)
    (hd : searchFirst matchDirectAt s.data = none)
    (hf : searchFirst matchFuzzyAt s.data = some (pos, m, y))
    (hm : List.lookup (lowerGer m) GERMAN_MONTHS = some mo)
    (hy : 1 ≤ natOfDigits y) :
    parse_target_date s = .ok ⟨natOfDigits y, mo, fuzzyDay pos mo (natOfDigits y)⟩ ∧
    (pos = none → fuzzyDay pos mo (natOfDigits y) = 1) ∧
    (∀ p, pos = some p → lowerGer p = "anfang".data →
      fuzzyDay pos mo (natOfDigits y) = 5) ∧
    (∀ p, pos = some p → lowerGer p = "mitte".data →
      fuzzyDay pos mo (natOfDigits y) = 15) ∧
    (∀ p, pos = some p → lowerGer p = "ende".data →
      fuzzyDay pos mo (natOfDigits y) = lastDayOfMonth mo (natOfDigits y)) := by
  have hspec := searchFirst_prop matchFuzzyAt
    (fun r => (∀ p', r.1 = some p' →
        lowerGer p' = "anfang".data ∨ lowerGer p' = "mitte".data ∨
          lowerGer p' = "ende".data) ∧
      r.2.2.length = 4 ∧ ∀ c ∈ r.2.2, isDigit c)
    (fun t r hr => by
      obtain ⟨pp, mm, yy⟩ := r
      exact matchFuzzyAt_spec t pp mm yy hr)
    s.data (pos, m, y) hf
  have hy9999 : natOfDigits y ≤ 9999 := by
    have := natOfDigits_lt y hspec.2.2
    rw [hspec.2.1] at this
    omega
  have hmo := GERMAN_MONTHS_range (lowerGer m) mo hm
  have h28 := monthrangeDays_ge (natOfDigits y) mo hmo.1 hmo.2
  have he : parse_target_date s = resolveFuzzy pos m y := by
    unfold parse_target_date
    rw [hd, hf]
  refine ⟨?_, ?_, ?_, ?_, ?_⟩
  · rw [he]
    cases pos with
    | none =>
      have hr : resolveFuzzy none m y = mkDate (natOfDigits y) mo 1 := by
        unfold resolveFuzzy
        rw [hm]
      rw [hr, mkDate_ok _ _ _ hy hy9999 hmo.1 hmo.2 (by omega) (by omega)]
      rfl
    | some pp =>
      rcases hspec.1 pp rfl with hc | hc | hc
      · have hpl : List.lookup (lowerGer pp) POSITION_DAY = some (.fixed 5) := by
          rw [hc]; decide
        have hr : resolveFuzzy (some pp) m y = mkDate (natOfDigits y) mo 5 := by
          unfold resolveFuzzy
          simp only [hm, hpl]
        rw [hr, mkDate_ok _ _ _ hy hy9999 hmo.1 hmo.2 (by omega) (by omega)]
        simp [fuzzyDay, hc]
      · have hpl : List.lookup (lowerGer pp) POSITION_DAY = some (.fixed 15) := by
          rw [hc]; decide
        have hr : resolveFuzzy (some pp) m y = mkDate (natOfDigits y) mo 15 := by
          unfold resolveFuzzy
          simp only [hm, hpl]
        rw [hr, mkDate_ok _ _ _ hy hy9999 hmo.1 hmo.2 (by omega) (by omega)]
        have hfd : fuzzyDay (some pp) mo (natOfDigits y) = 15 := by
          simp [fuzzyDay, hc]
        rw [hfd]
      · have hpl : List.lookup (lowerGer pp) POSITION_DAY = some .last := by
          rw [hc]; decide
        have hr : resolveFuzzy (some pp) m y =
            mkDate (natOfDigits y) mo (monthrangeDays (natOfDigits y) mo) := by
          unfold resolveFuzzy
          simp only [hm, hpl]
        rw [hr, mkDate_ok _ _ _ hy hy9999 hmo.1 hmo.2 (by omega) (by omega)]
        have hfd : fuzzyDay (some pp) mo (natOfDigits y) =
            lastDayOfMonth mo (natOfDigits y) := by
          simp [fuzzyDay, hc]
        rw [hfd, monthrangeDays_eq_lastDayOfMonth _ _ hmo.1 hmo.2]
  · intro hp
    subst hp
    rfl
  · intro p hp hc
    subst hp
    simp [fuzzyDay, hc]
  · intro p hp hc
    subst hp
    simp [fuzzyDay, hc]
  · intro p hp hc
    subst hp
    simp [fuzzyDay, hc]

/-- C2 witness: `bis Ende Februar 2024` resolves to 2024-02-29 and
`bis Ende Februar 2023` to 2023-02-28. -/
theorem spec_c2_witness :
    parse_target_date "bis Ende Februar 2024" = .ok ⟨2024, 2, 29⟩ ∧
    parse_target_date "bis Ende Februar 2023" = .ok ⟨2023, 2, 28⟩ :=
  ⟨((spec_c2 "bis Ende Februar 2024" (some "Ende".data) "Februar".data "2024".data 2
      (by decide) (by decide) (by decide) (by decide)).1).trans (by decide),
   ((spec_c2 "bis Ende Februar 2023" (some "Ende".data) "Februar".data "2023".data 2
      (by decide) (by decide) (by decide) (by decide)).1).trans (by decide)⟩

/-- C8 (confirmed): in the fuzzy resolution an unknown month word fails with
the `Unknown month name` error, an unsupported qualifier (month known) fails
with the `Unsupported position descriptor` error, the two errors are distinct
constructors, and the unknown-month failure is reachable through
`parse_target_date` itself. -/
theorem spec_c8 :
    (∀ (pos : Option (List Char)) (m y : List Char),
      List.lookup (lowerGer m) GERMAN_MONTHS = none →
      resolveFuzzy pos m y = .error (.invalidMonth (String.mk m))) ∧
    (∀ (p m y : List Char) (mo : Nat),
      List.lookup (lowerGer m) GERMAN_MONTHS = some mo →
      List.lookup (lowerGer p) POSITION_DAY = none →
      resolveFuzzy (some p) m y = .error (.unsupportedPosition (String.mk p))) ∧
    (∀ a b : String, ParseErr.invalidMonth a ≠ ParseErr.unsupportedPosition b) ∧
    (∀ (s : String) (pos : Option (List Char)) (m y : List Char),
      searchFirst matchDirectAt s.data = none →
      searchFirst matchFuzzyAt s.data = some (pos, m, y) →
      List.lookup (lowerGer m) GERMAN_MONTHS = none →
      parse_target_date s = .error (.invalidMonth (String.mk m))) := by
  refine ⟨?_, ?_, ?_, ?_⟩
  · intro pos m y h
    unfold resolveFuzzy
    rw [h]
  · intro p m y mo hm hp
    unfold resolveFuzzy
    simp only [hm, hp]
  · intro a b h
    cases h
  · intro s pos m y hd hf hm
    have he : parse_target_date s = resolveFuzzy pos m y := by
      unfold parse_target_date
      rw [hd, hf]
    rw [he]
    unfold resolveFuzzy
    rw [hm]

/-- C8 witness: concrete unknown month and unsupported qualifier, and the
reachable unknown-month failure end to end. -/
theorem spec_c8_witness :
    resolveFuzzy none "Brumaire".data "2024".data =
      .error (.invalidMonth "Brumaire") ∧
    resolveFuzzy (some "Anfangs".data) "Februar".data "2024".data =
      .error (.unsupportedPosition "Anfangs") ∧
    parse_target_date "bis Brumaire 2024" = .error (.invalidMonth "Brumaire") :=
  ⟨by
    have := spec_c8.1 none "Brumaire".data "2024".data (by decide)
    simpa using this,
   by
    have := spec_c8.2.1 "Anfangs".data "Februar".data "2024".data 2 (by decide) (by decide)
    simpa using this,
   by
    have := spec_c8.2.2.2 "bis Brumaire 2024" none "Brumaire".data "2024".data
      (by decide) (by decide) (by decide)
    simpa using this⟩

/-- C9 (confirmed): when any fetch, extraction or parsing step fails, `main`
leaves the store untouched, prints exactly one diagnostic line to stderr and
exits 1; when every step succeeds it exits 0 with empty stderr, whether or
not a row was appended. -/
theorem spec_c9 (fetched : Except String String) (today : String) (store : Store) :
    (∀ e, collect_status fetched = .error e →
      main fetched today store = ⟨store, 1, [], ["error: " ++ e]⟩) ∧
    (∀ v, collect_status fetched = .ok v →
      (main fetched today store).exitCode = 0 ∧ (main fetched today store).stderr = []) := by
  constructor
  · intro e he
    unfold main
    rw [he]
  · intro v hv
    obtain ⟨sentence, standD, targetD⟩ := v
    have he : main fetched today store =
        (if (append_row_if_changed store
              [today, isoDate standD, sentence, isoDate targetD]).2 then
          (⟨(append_row_if_changed store
              [today, isoDate standD, sentence, isoDate targetD]).1, 0,
            ["Appended new row for Stand " ++ isoDate standD], []⟩ : RunResult)
        else
          ⟨(append_row_if_changed store
              [today, isoDate standD, sentence, isoDate targetD]).1, 0,
            ["No change detected; CSV not modified."], []⟩) := by
      unfold main
      rw [hv]
    rw [he]
    split <;> exact ⟨rfl, rfl⟩

/-- C9 witness: a failing fetch gives exit 1, one stderr line and an
unchanged store; a successful end-to-end run gives exit 0 and no stderr. -/
theorem spec_c9_witness :
    main (.error "boom") "2025-02-22" none = ⟨none, 1, [], ["error: boom"]⟩ ∧
    (main
        (.ok "<html><body><p>Derzeit werden Anträge mit Eingangsdatum bis Ende April 2023 bearbeitet (Stand: 28.08.2025).</p></body></html>")
        "2025-02-22" none).exitCode = 0 ∧
    (main
        (.ok "<html><body><p>Derzeit werden Anträge mit Eingangsdatum bis Ende April 2023 bearbeitet (Stand: 28.08.2025).</p></body></html>")
        "2025-02-22" none).stderr = [] :=
  ⟨(spec_c9 (.error "boom") "2025-02-22" none).1 "boom" (by decide),
   ((spec_c9
      (.ok "<html><body><p>Derzeit werden Anträge mit Eingangsdatum bis Ende April 2023 bearbeitet (Stand: 28.08.2025).</p></body></html>")
      "2025-02-22" none).2
      ("Derzeit werden Anträge mit Eingangsdatum bis Ende April 2023 bearbeitet (Stand: 28.08.2025).",
        ⟨2025, 8, 28⟩, ⟨2023, 4, 30⟩) (by decide)).1,
   ((spec_c9
      (.ok "<html><body><p>Derzeit werden Anträge mit Eingangsdatum bis Ende April 2023 bearbeitet (Stand: 28.08.2025).</p></body></html>")
      "2025-02-22" none).2
      ("Derzeit werden Anträge mit Eingangsdatum bis Ende April 2023 bearbeitet (Stand: 28.08.2025).",
        ⟨2025, 8, 28⟩, ⟨2023, 4, 30⟩) (by decide)).2⟩

/-- Declarative reading of the status-sentence pattern: a case variant of the
announcement phrase, a run free of parentheses, a case variant of `(Stand:`,
whitespace, two digits, a period, two digits, a period, four digits, a
closing parenthesis, and an optional trailing period. -/
def StructMatch (m : List Char) : Prop :=
  ∃ pre body stand ws d1 d2 yr dot : List Char,
    m = pre ++ body ++ stand ++ ws ++ d1 ++ ['.'] ++ d2 ++ ['.'] ++ yr ++ [')'] ++ dot ∧
    lowerGer pre = lowerGer PHRASE ∧
    (∀ c ∈ body, ¬(c = '(' ∨ c = ')')) ∧
    lowerGer stand = lowerGer "(Stand:".data ∧
    (∀ c ∈ ws, isPySpace c) ∧
    d1.length = 2 ∧ (∀ c ∈ d1, isDigit c) ∧
    d2.length = 2 ∧ (∀ c ∈ d2, isDigit c) ∧
    yr.length = 4 ∧ (∀ c ∈ yr, isDigit c) ∧
    (dot = [] ∨ dot = ['.'])

theorem take_sub_of_append (cs M t : List Char) (h : cs = M ++ t) :
    cs.take (cs.length - t.length) = M := by
  subst h
  simp [List.take_left]

/-- Soundness of the status matcher: a successful match at the head of `cs`
is a prefix of `cs` and decomposes as the declarative pattern. -/
theorem statusMatchAt_sound (cs m : List Char) (h : statusMatchAt cs = some m) :
    (∃ rest, cs = m ++ rest) ∧ StructMatch m := by
  unfold statusMatchAt at h
  split at h
  · cases h
  next u1 r1 h1 =>
    split at h
    · cases h
    next u2 r3 h2 =>
      split at h
      · cases h
      next d1 r5 h3 =>
        split at h
        · cases h
        next r6 h4 =>
          split at h
          · cases h
          next d2 r7 h5 =>
            split at h
            · cases h
            next r8 h6 =>
              split at h
              · cases h
              next yr r9 h7 =>
                obtain ⟨body, r2, hbody⟩ :
                    ∃ a b, munch (fun c => ¬(c = '(' ∨ c = ')')) r1 = (a, b) :=
                  ⟨_, _, rfl⟩
                obtain ⟨ws, r4, hws⟩ : ∃ a b, munch isPySpace r3 = (a, b) :=
                  ⟨_, _, rfl⟩
                simp only [hbody] at h2
                simp only [hws] at h3
                have e1 := ciDropLit_spec PHRASE cs u1 r1 h1
                have e2a : body ++ r2 = r1 := by
                  have := munch_append (fun c => ¬(c = '(' ∨ c = ')')) r1
                  rw [hbody] at this
                  simpa using this
                have e2 := ciDropLit_spec "(Stand:".data r2 u2 r3 h2
                have e3a : ws ++ r4 = r3 := by
                  have := munch_append isPySpace r3
                  rw [hws] at this
                  simpa using this
                have e3 := takeDigits_spec 2 r4 d1 r5 h3
                have e4 := expectChar_spec '.' r5 r6 h4
                have e5 := takeDigits_spec 2 r6 d2 r7 h5
                have e6 := expectChar_spec '.' r7 r8 h6
                have e7 := takeDigits_spec 4 r8 yr r9 h7
                have hbodyP : ∀ c ∈ body, ¬(c = '(' ∨ c = ')') := by
                  intro c hc
                  have hall := munch_sat (fun c => ¬(c = '(' ∨ c = ')')) r1
                  rw [hbody] at hall
                  have := hall c (by simpa using hc)
                  simpa using this
                have hwsP : ∀ c ∈ ws, isPySpace c := by
                  intro c hc
                  have hall := munch_sat isPySpace r3
                  rw [hws] at hall
                  exact hall c (by simpa using hc)
                split at h
                · cases h
                next t h8 =>
                  have e8 := expectChar_spec ')' r9 ('.' :: t) h8
                  have hcs : cs = (u1 ++ body ++ u2 ++ ws ++ d1 ++ ['.'] ++ d2 ++
                      ['.'] ++ yr ++ [')'] ++ ['.']) ++ t := by
                    rw [e1.2, ← e2a, e2.2, ← e3a, e3.1, e4, e5.1, e6, e7.1, e8]
                    simp [List.append_assoc]
                  have hm : m = u1 ++ body ++ u2 ++ ws ++ d1 ++ ['.'] ++ d2 ++
                      ['.'] ++ yr ++ [')'] ++ ['.'] := by
                    have := take_sub_of_append cs _ t hcs
                    simp only [Option.some.injEq] at h
                    rw [← h, this]
                  refine ⟨⟨t, by rw [hm]; exact hcs⟩, ?_⟩
                  exact ⟨u1, body, u2, ws, d1, d2, yr, ['.'], hm, e1.1, hbodyP, e2.1,
                    hwsP, e3.2.1, e3.2.2, e5.2.1, e5.2.2, e7.2.1, e7.2.2, Or.inr rfl⟩
                next r10 hne h8 =>
                  have e8 := expectChar_spec ')' r9 r10 h8
                  have hcs : cs = (u1 ++ body ++ u2 ++ ws ++ d1 ++ ['.'] ++ d2 ++
                      ['.'] ++ yr ++ [')'] ++ []) ++ r10 := by
                    rw [e1.2, ← e2a, e2.2, ← e3a, e3.1, e4, e5.1, e6, e7.1, e8]
                    simp [List.append_assoc]
                  have hm : m = u1 ++ body ++ u2 ++ ws ++ d1 ++ ['.'] ++ d2 ++
                      ['.'] ++ yr ++ [')'] ++ [] := by
                    have := take_sub_of_append cs _ r10 hcs
                    simp only [Option.some.injEq] at h
                    rw [← h, this]
                  refine ⟨⟨r10, by rw [hm]; exact hcs⟩, ?_⟩
                  exact ⟨u1, body, u2, ws, d1, d2, yr, [], hm, e1.1, hbodyP, e2.1,
                    hwsP, e3.2.1, e3.2.2, e5.2.1, e5.2.2, e7.2.1, e7.2.2, Or.inl rfl⟩

/-- C6 (confirmed): the sentence locator succeeds exactly when the pattern
matches at some position, returning the match at the leftmost matching
position, trimmed; it fails with the not-found error exactly when no position
matches; and every match is a prefix of its suffix that decomposes as the
structural pattern. -/
theorem spec_c6 (text : String) :
    (∀ s, locate_sentence text = .ok s ↔
      ∃ i m, statusMatchAt (text.data.drop i) = some m ∧
        (∀ j < i, statusMatchAt (text.data.drop j) = none) ∧
        s = String.mk (pstrip m)) ∧
    (locate_sentence text = .error "Status sentence not found in HTML content." ↔
      ∀ i, statusMatchAt (text.data.drop i) = none) ∧
    (∀ i m, statusMatchAt (text.data.drop i) = some m →
      (∃ rest, text.data.drop i = m ++ rest) ∧ StructMatch m) := by
  refine ⟨?_, ?_, fun i m h => statusMatchAt_sound _ _ h⟩
  · intro s
    cases hsf : searchFirst statusMatchAt text.data with
    | some m0 =>
      have hl : locate_sentence text = .ok (String.mk (pstrip m0)) := by
        unfold locate_sentence
        rw [hsf]
      rw [hl]
      constructor
      · intro hs
        injection hs with hs
        obtain ⟨i, hi, hlt⟩ := (searchFirst_eq_some_iff statusMatchAt text.data m0).1 hsf
        exact ⟨i, m0, hi, hlt, hs.symm⟩
      · rintro ⟨i, m, hi, hlt, hs⟩
        have hs2 : searchFirst statusMatchAt text.data = some m :=
          (searchFirst_eq_some_iff statusMatchAt text.data m).2 ⟨i, hi, hlt⟩
        rw [hsf] at hs2
        injection hs2 with hs2
        rw [hs, hs2]
    | none =>
      have hl : locate_sentence text =
          .error "Status sentence not found in HTML content." := by
        unfold locate_sentence
        rw [hsf]
      rw [hl]
      constructor
      · intro hc
        cases hc
      · rintro ⟨i, m, hi, hlt, hs⟩
        have := (searchFirst_eq_none_iff statusMatchAt text.data).1 hsf i
        rw [this] at hi
        cases hi
  · cases hsf : searchFirst statusMatchAt text.data with
    | some m0 =>
      have hl : locate_sentence text = .ok (String.mk (pstrip m0)) := by
        unfold locate_sentence
        rw [hsf]
      rw [hl]
      constructor
      · intro hc
        cases hc
      · intro hall
        have h2 := (searchFirst_eq_none_iff statusMatchAt text.data).2 hall
        rw [hsf] at h2
        cases h2
    | none =>
      have hl : locate_sentence text =
          .error "Status sentence not found in HTML content." := by
        unfold locate_sentence
        rw [hsf]
      rw [hl]
      constructor
      · intro _
        exact (searchFirst_eq_none_iff statusMatchAt text.data).1 hsf
      · intro _
        rfl

/-- C6 witness: the locator on a text with leading and trailing noise returns
exactly the sentence, matched at position 3 and at no earlier position. -/
theorem spec_c6_witness :
    locate_sentence "zz Derzeit werden Anträge mit Eingangsdatum bis Ende April 2023 bearbeitet (Stand: 28.08.2025). yy" =
      .ok "Derzeit werden Anträge mit Eingangsdatum bis Ende April 2023 bearbeitet (Stand: 28.08.2025)." :=
  ((spec_c6 "zz Derzeit werden Anträge mit Eingangsdatum bis Ende April 2023 bearbeitet (Stand: 28.08.2025). yy").1
      "Derzeit werden Anträge mit Eingangsdatum bis Ende April 2023 bearbeitet (Stand: 28.08.2025).").mpr
    ⟨3, "Derzeit werden Anträge mit Eingangsdatum bis Ende April 2023 bearbeitet (Stand: 28.08.2025).".data,
      by decide, by decide, by decide⟩

/-! Word-splitting lemmas for the text normalization. -/

theorem splitWsAux_append_sep (sep : Char) (hsep : isPySpace sep = true) :
    ∀ (x w y : List Char),
      splitWsAux w (x ++ sep :: y) = splitWsAux w x ++ splitWsAux [] y
  | [], w, y => by
    by_cases hw : w = []
    · simp [splitWsAux, hsep, hw]
    · simp [splitWsAux, hsep, hw]
  | c :: x', w, y => by
    have IH := fun w => splitWsAux_append_sep sep hsep x' w y
    by_cases hc : isPySpace c
    · by_cases hw : w = []
      · simp [splitWsAux, hc, hw, IH]
      · simp [splitWsAux, hc, hw, IH]
    · simp [splitWsAux, hc, IH]

theorem splitWs_append_sep (sep : Char) (hsep : isPySpace sep = true)
    (x y : List Char) : splitWs (x ++ sep :: y) = splitWs x ++ splitWs y :=
  splitWsAux_append_sep sep hsep x [] y

theorem splitWsAux_all_space : ∀ (t w : List Char),
    (∀ c ∈ t, isPySpace c = true) →
      splitWsAux w t = if w = [] then [] else [w.reverse]
  | [], _, _ => rfl
  | c :: t, w, h => by
    have hc := h c (.head _)
    have IH := splitWsAux_all_space t [] (fun c hc => h c (.tail _ hc))
    by_cases hw : w = []
    · simp [splitWsAux, hc, hw, IH]
    · simp [splitWsAux, hc, hw, IH]

theorem splitWs_all_space (t : List Char) (h : ∀ c ∈ t, isPySpace c = true) :
    splitWs t = [] := by
  rw [splitWs, splitWsAux_all_space t [] h]
  rfl

theorem splitWsAux_append_all_space : ∀ (x w t : List Char),
    (∀ c ∈ t, isPySpace c = true) → splitWsAux w (x ++ t) = splitWsAux w x
  | [], w, t, h => by
    rw [List.nil_append, splitWsAux_all_space t w h]
    rfl
  | c :: x', w, t, h => by
    have IH := fun w => splitWsAux_append_all_space x' w t h
    by_cases hc : isPySpace c
    · by_cases hw : w = []
      · simp [splitWsAux, hc, hw, IH]
      · simp [splitWsAux, hc, hw, IH]
    · simp [splitWsAux, hc, IH]

theorem splitWs_append_all_space (x t : List Char)
    (h : ∀ c ∈ t, isPySpace c = true) : splitWs (x ++ t) = splitWs x :=
  splitWsAux_append_all_space x [] t h

theorem splitWs_dropWhile : ∀ x : List Char,
    splitWs (x.dropWhile isPySpace) = splitWs x
  | [] => rfl
  | c :: x' => by
    by_cases hc : isPySpace c
    · rw [List.dropWhile_cons_of_pos (by simpa using hc), splitWs_dropWhile x']
      simp [splitWs, splitWsAux, hc]
    · rw [List.dropWhile_cons_of_neg (by simpa using hc)]

theorem splitWs_pstrip (x : List Char) : splitWs (pstrip x) = splitWs x := by
  unfold pstrip
  set z := x.dropWhile isPySpace with hz
  have hdecomp : z = (z.reverse.dropWhile isPySpace).reverse ++
      (z.reverse.takeWhile isPySpace).reverse := by
    calc z = z.reverse.reverse := by simp
      _ = (z.reverse.takeWhile isPySpace ++ z.reverse.dropWhile isPySpace).reverse := by
          rw [List.takeWhile_append_dropWhile]
      _ = (z.reverse.dropWhile isPySpace).reverse ++
            (z.reverse.takeWhile isPySpace).reverse := by
          rw [List.reverse_append]
  have hsp : ∀ c ∈ (z.reverse.takeWhile isPySpace).reverse, isPySpace c = true := by
    intro c hc
    rw [List.mem_reverse] at hc
    exact List.mem_takeWhile_imp hc
  calc splitWs (z.reverse.dropWhile isPySpace).reverse
      = splitWs ((z.reverse.dropWhile isPySpace).reverse ++
          (z.reverse.takeWhile isPySpace).reverse) := by
        rw [splitWs_append_all_space _ _ hsp]
    _ = splitWs z := by rw [← hdecomp]
    _ = splitWs x := by rw [hz, splitWs_dropWhile]

theorem joinSp_cons_cons (p q : List Char) (ps : List (List Char)) :
    joinSp (p :: q :: ps) = p ++ ' ' :: joinSp (q :: ps) := rfl

theorem splitWs_joinSp : ∀ ls : List (List Char),
    splitWs (joinSp ls) = (ls.map splitWs).flatten
  | [] => rfl
  | [p] => by simp [joinSp]
  | p :: q :: ps => by
    rw [joinSp_cons_cons, splitWs_append_sep ' ' (by decide) p (joinSp (q :: ps)),
      splitWs_joinSp (q :: ps)]
    simp

/-- The texts of all character-data events, in document order, including the
content delivered in CDATA mode (inside `script`/`style`). -/
def dataTexts (ev : List HtmlEvent) : List (List Char) :=
  ev.filterMap fun e =>
    match e with
    | .data _ d => some d
    | _ => none

/-- The texts of the character-data events outside CDATA mode only: the
reading of the claim in which script/style content is dropped. -/
def noCdataTexts (ev : List HtmlEvent) : List (List Char) :=
  ev.filterMap fun e =>
    match e with
    | .data false d => some d
    | _ => none

theorem parts_words : ∀ ev : List HtmlEvent,
    ((parts ev).map splitWs).flatten = ((dataTexts ev).map splitWs).flatten
  | [] => rfl
  | e :: ev => by
    have IH := parts_words ev
    unfold parts dataTexts at IH ⊢
    cases e with
    | data b d =>
      by_cases hd : pstrip d = []
      · have h0 : splitWs d = [] := by
          rw [← splitWs_pstrip, hd]
          rfl
        simp [List.filterMap_cons, hd, h0, IH]
      · simp [List.filterMap_cons, hd, splitWs_pstrip, IH]
    | startTag n => simpa [List.filterMap_cons] using IH
    | endTag n => simpa [List.filterMap_cons] using IH
    | comment t => simpa [List.filterMap_cons] using IH
    | markupDecl t => simpa [List.filterMap_cons] using IH
    | procInstr t => simpa [List.filterMap_cons] using IH

/-- The text the amended claim describes: the whitespace-delimited words of
all character-data segments, in document order, joined by single spaces. -/
def specWordsText (html : String) : String :=
  String.mk (joinSp (((dataTexts (tokenize html.data)).map splitWs).flatten))

/-- The text the claim as stated describes: the same but with the character
data of script/style elements dropped. -/
def claimC7Text (html : String) : String :=
  String.mk (joinSp (((noCdataTexts (tokenize html.data)).map splitWs).flatten))

end UpdateResults

namespace UpdateResults

/-- C7 (corrected, amended form): for every HTML document the extractor's
output is the whitespace-normalized concatenation, in document order, of the
words of all character-data segments — tags, attributes, comments,
declarations and processing instructions dropped, but the character data
inside `script` and `style` elements retained. -/
theorem spec_c7 (html : String) : extractorText html = specWordsText html := by
  unfold extractorText normalizedOf specWordsText get_text
  rw [splitWs_joinSp, parts_words]

/-- C7 counterexample: on a document with a script element the extractor
keeps the script's character data, while the claim as stated (scripts
dropped) predicts a different string. -/
theorem spec_c7_counterexample :
    extractorText "<p>a</p><script>var x = 1;</script>" = "a var x = 1;" ∧
    claimC7Text "<p>a</p><script>var x = 1;</script>" = "a" ∧
    extractorText "<p>a</p><script>var x = 1;</script>" ≠
      claimC7Text "<p>a</p><script>var x = 1;</script>" := by
  decide

end UpdateResults
